import Mathlib

/-!
# Sushi: subdomain enumeration pipeline (`main.go`)

A shallow embedding of `main.go` and a verification of the properties its
specification states about it.

Modelling conventions.

* A Go `string` / `[]byte` holding text is a `Str`, a list of Unicode scalar
  values (well-formed UTF-8 text).  On such text Go's byte-wise string
  comparison coincides with the lexicographic order on code points, which is
  the order Mathlib puts on `List Char`.
* A `map[string]struct{}` is a `Finset Str`; ranging over it yields every key
  exactly once in an unspecified order (`Emits`).
* The network is an oracle `httpGet : Str → Fetch` from the request URL to the
  outcome of `http.Get` followed by `ioutil.ReadAll`.
* A Go panic (`regexp.MustCompile`) and a failed `os.Create` are `none`.
* The goroutines of `main` are modelled by the set of result streams they can
  produce: the interleavings of the workers' emissions (`ResultStream`).
* The standard-library functions the program calls (`strings.Contains`,
  `sort.Strings`, `regexp.QuoteMeta`, `regexp.MustCompile`,
  `(*Regexp).FindAllString`, `json.Unmarshal`, `fmt.Sprintf`) are modelled by
  the definitions of the first sections, following their documented behaviour.
-/

namespace Sushi

/-- A Go string holding text: a sequence of Unicode scalar values. -/
abbrev Str := List Char

/-! ## `strings` -/

/-- Model of `strings.Contains(s, substr)`: `substr` occurs in `s` as a contiguous
substring (the empty string occurs in every string). -/
def contains : Str → Str → Bool
  | [], sub => sub.isPrefixOf []
  | c :: s, sub => sub.isPrefixOf (c :: s) || contains s sub

/-! ## `sort` -/

/-- Model of `sort.Strings`: the list rearranged into non-decreasing
lexicographic order.  The order is total, so the sorted rearrangement is unique
and the sorting algorithm is immaterial. -/
def sortStrings (xs : List Str) : List Str :=
  xs.insertionSort (· ≤ ·)

/-! ## `encoding/json` -/

/-- The value `json.Unmarshal` stores into an `interface{}`: `nil`, `bool`,
`float64` (kept as its lexeme), `string`, `[]interface{}` or
`map[string]interface{}` (an association list with pairwise distinct keys). -/
inductive JValue where
  | null
  | bool (b : Bool)
  | number (lexeme : Str)
  | str (s : Str)
  | arr (items : List JValue)
  | obj (members : List (Str × JValue))

instance : Inhabited JValue := ⟨JValue.null⟩

/-- The decoder refuses a document nested deeper than this. -/
def maxNestingDepth : Nat := 10000

/-- JSON insignificant white space. -/
def isJSONSpace (c : Char) : Bool :=
  c = ' ' || c = '\t' || c = '\r' || c = '\n'

/-- Drop leading white space. -/
def skipWs : Str → Str
  | [] => []
  | c :: t => if isJSONSpace c then skipWs t else c :: t

/-- Value of a hexadecimal digit. -/
def hexVal (c : Char) : Option Nat :=
  if '0' ≤ c ∧ c ≤ '9' then some (c.toNat - '0'.toNat)
  else if 'a' ≤ c ∧ c ≤ 'f' then some (c.toNat - 'a'.toNat + 10)
  else if 'A' ≤ c ∧ c ≤ 'F' then some (c.toNat - 'A'.toNat + 10)
  else none

/-- The UTF-16 code unit written by the four hexadecimal digits of a `\u` escape. -/
def hex4 (a b c d : Char) : Option Nat :=
  match hexVal a, hexVal b, hexVal c, hexVal d with
  | some x, some y, some z, some w => some (((x * 16 + y) * 16 + z) * 16 + w)
  | _, _, _, _ => none

/-- The Unicode replacement character U+FFFD. -/
def replacementChar : Char := Char.ofNat 0xFFFD

/-- The body of a string literal, after its opening quote: the decoded string and
the input after the closing quote.  A surrogate escape that is not the first half
of a valid pair decodes to U+FFFD.  Every step consumes input, so a fuel of the
input length plus one is never exhausted. -/
def parseString : Nat → Str → Str → Option (Str × Str)
  | 0, _, _ => none
  | _ + 1, [], _ => none
  | fuel + 1, c :: t, acc =>
    if c = '"' then some (acc, t)
    else if c = '\\' then
      match t with
      | [] => none
      | e :: t1 =>
        if e = '"' then parseString fuel t1 (acc ++ ['"'])
        else if e = '\\' then parseString fuel t1 (acc ++ ['\\'])
        else if e = '/' then parseString fuel t1 (acc ++ ['/'])
        else if e = 'b' then parseString fuel t1 (acc ++ [Char.ofNat 8])
        else if e = 'f' then parseString fuel t1 (acc ++ [Char.ofNat 12])
        else if e = 'n' then parseString fuel t1 (acc ++ ['\n'])
        else if e = 'r' then parseString fuel t1 (acc ++ ['\r'])
        else if e = 't' then parseString fuel t1 (acc ++ ['\t'])
        else if e = 'u' then
          match t1 with
          | a :: b :: c1 :: d :: t2 =>
            match hex4 a b c1 d with
            | none => none
            | some u =>
              if 0xD800 ≤ u ∧ u < 0xE000 then
                match t2 with
                | bs :: lu :: a2 :: b2 :: c2 :: d2 :: t3 =>
                  match hex4 a2 b2 c2 d2 with
                  | some v =>
                    if bs = '\\' ∧ lu = 'u' ∧ u < 0xDC00 ∧ 0xDC00 ≤ v ∧ v < 0xE000 then
                      parseString fuel t3
                        (acc ++ [Char.ofNat ((u - 0xD800) * 1024 + (v - 0xDC00) + 0x10000)])
                    else parseString fuel t2 (acc ++ [replacementChar])
                  | none => parseString fuel t2 (acc ++ [replacementChar])
                | _ => parseString fuel t2 (acc ++ [replacementChar])
              else parseString fuel t2 (acc ++ [Char.ofNat u])
          | _ => none
        else none
    else if c.toNat < 0x20 then none
    else parseString fuel t (acc ++ [c])

/-- Numeric value of a run of decimal digits. -/
def digitsVal (ds : Str) : Nat :=
  ds.foldl (fun n c => 10 * n + (c.toNat - '0'.toNat)) 0

/-- Whether the decimal `int.frac e exp` converts to a finite `float64`:
`strconv.ParseFloat` reports a range error from `2^1024 - 2^970` on, the least
magnitude that rounds to infinity. -/
def float64InRange (int frac : Str) (expNeg : Bool) (exp : Str) : Bool :=
  let mant := digitsVal (int ++ frac)
  let limit := 2 ^ 1024 - 2 ^ 970
  let e := digitsVal exp
  if expNeg then mant < limit * 10 ^ (e + frac.length)
  else if frac.length ≤ e then mant * 10 ^ (e - frac.length) < limit
  else mant < limit * 10 ^ (frac.length - e)

/-- A number literal at the head of the input: its lexeme, whether it converts
to a finite `float64`, and the rest of the input. -/
def parseNumber (s : Str) : Option (Str × Bool × Str) :=
  let (sign, s1) := match s with
    | '-' :: t => (['-'], t)
    | _ => ([], s)
  let (int, s2) := match s1 with
    | '0' :: t => (['0'], t)
    | _ => s1.span Char.isDigit
  if int = [] then none else
  let fracPart : Option (Str × Str) := match s2 with
    | '.' :: t =>
      let (f, r) := t.span Char.isDigit
      if f = [] then none else some (f, r)
    | _ => some ([], s2)
  match fracPart with
  | none => none
  | some (frac, s3) =>
    let dot : Str := if frac = [] then [] else ['.']
    match s3 with
    | e :: t =>
      if e = 'e' ∨ e = 'E' then
        let (esign, t1) := match t with
          | '+' :: u => (['+'], u)
          | '-' :: u => (['-'], u)
          | _ => ([], t)
        let (ex, r) := t1.span Char.isDigit
        if ex = [] then none
        else some (sign ++ int ++ dot ++ frac ++ [e] ++ esign ++ ex,
          float64InRange int frac (esign = ['-']) ex, r)
      else some (sign ++ int ++ dot ++ frac, float64InRange int frac false [], s3)
    | [] => some (sign ++ int ++ dot ++ frac, float64InRange int frac false [], s3)

/-- Map assignment `m[k] = v` on an association list with distinct keys. -/
def mapSet (m : List (Str × JValue)) (k : Str) (v : JValue) : List (Str × JValue) :=
  match m with
  | [] => [(k, v)]
  | (k1, v1) :: rest => if k1 = k then (k, v) :: rest else (k1, v1) :: mapSet rest k v

mutual
/-- One JSON value at the head of the input (no leading white space), below
`depth` open containers. -/
def parseValue : Nat → Nat → Str → Option (JValue × Str)
  | 0, _, _ => none
  | fuel + 1, depth, s =>
    match s with
    | [] => none
    | c :: t =>
      if c = '[' then
        if depth < maxNestingDepth then
          match skipWs t with
          | [] => none
          | c1 :: t1 =>
            if c1 = ']' then some (JValue.arr [], t1)
            else parseElements fuel (depth + 1) (c1 :: t1) []
        else none
      else if c = '{' then
        if depth < maxNestingDepth then
          match skipWs t with
          | [] => none
          | c1 :: t1 =>
            if c1 = '}' then some (JValue.obj [], t1)
            else parseMembers fuel (depth + 1) (c1 :: t1) []
        else none
      else if c = '"' then
        match parseString (t.length + 1) t [] with
        | none => none
        | some (x, r) => some (JValue.str x, r)
      else if c = 't' then
        match t with
        | 'r' :: 'u' :: 'e' :: r => some (JValue.bool true, r)
        | _ => none
      else if c = 'f' then
        match t with
        | 'a' :: 'l' :: 's' :: 'e' :: r => some (JValue.bool false, r)
        | _ => none
      else if c = 'n' then
        match t with
        | 'u' :: 'l' :: 'l' :: r => some (JValue.null, r)
        | _ => none
      else
        match parseNumber (c :: t) with
        | some (lexeme, true, r) => some (JValue.number lexeme, r)
        | _ => none
/-- The elements of an array from the head of an element (no leading white
space) to the closing bracket. -/
def parseElements : Nat → Nat → Str → List JValue → Option (JValue × Str)
  | 0, _, _, _ => none
  | fuel + 1, depth, s, acc =>
    match parseValue fuel depth s with
    | none => none
    | some (v, r) =>
      match skipWs r with
      | [] => none
      | c :: r1 =>
        if c = ',' then parseElements fuel depth (skipWs r1) (acc ++ [v])
        else if c = ']' then some (JValue.arr (acc ++ [v]), r1)
        else none
/-- The members of an object from the head of a key (no leading white space) to
the closing brace.  A repeated key overwrites the earlier member. -/
def parseMembers : Nat → Nat → Str → List (Str × JValue) → Option (JValue × Str)
  | 0, _, _, _ => none
  | fuel + 1, depth, s, acc =>
    match s with
    | [] => none
    | q :: t =>
      if q = '"' then
        match parseString (t.length + 1) t [] with
        | none => none
        | some (k, r) =>
          match skipWs r with
          | [] => none
          | colon :: r1 =>
            if colon = ':' then
              match parseValue fuel depth (skipWs r1) with
              | none => none
              | some (v, r2) =>
                match skipWs r2 with
                | [] => none
                | c :: r3 =>
                  if c = ',' then parseMembers fuel depth (skipWs r3) (mapSet acc k v)
                  else if c = '}' then some (JValue.obj (mapSet acc k v), r3)
                  else none
            else none
      else none
end

/-- Model of `json.Unmarshal(body, &data)` for `data interface{}`: the decoded
value, or `none` when `Unmarshal` returns an error.  The body must be exactly one
JSON value surrounded by optional white space. -/
def jsonUnmarshal (body : Str) : Option JValue :=
  match parseValue (2 * body.length + 2) 0 (skipWs body) with
  | none => none
  | some (v, r) => if skipWs r = [] then some v else none

/-! ## `regexp`

The fragment of Go's regular-expression syntax (Perl mode, as `MustCompile`
parses it) that the program's pattern lives in: literals, escaped punctuation,
`\w`, bracketed classes, the greedy `+` and capture groups.  `compile` returns
`none` on a pattern that Go rejects and on one that leaves this fragment. -/

/-- The characters `regexp.QuoteMeta` escapes. -/
def special (c : Char) : Bool :=
  c = '\\' || c = '.' || c = '+' || c = '*' || c = '?' || c = '(' || c = ')' || c = '|' ||
  c = '[' || c = ']' || c = '{' || c = '}' || c = '^' || c = '$'

/-- Model of `regexp.QuoteMeta`: a backslash before every special character. -/
def quoteMeta : Str → Str
  | [] => []
  | c :: t => if special c then '\\' :: c :: quoteMeta t else c :: quoteMeta t

/-- A character class as a list of inclusive ranges. -/
abbrev CharClass := List (Char × Char)

/-- Whether the class holds the character. -/
def classMatches (cl : CharClass) (c : Char) : Bool :=
  cl.any (fun r => decide (r.1 ≤ c) && decide (c ≤ r.2))

/-- The Perl class `\w`: `[0-9A-Za-z_]`. -/
def perlWord : CharClass := [('0', '9'), ('A', 'Z'), ('_', '_'), ('a', 'z')]

/-- Parsed regular expressions of the fragment. -/
inductive Regexp where
  | empty
  | lit (c : Char)
  | cls (ranges : CharClass)
  | cat (a b : Regexp)
  | plus (r : Regexp)
  | cap (r : Regexp)

/-- An entry of the parser's stack: a parsed expression or the marker an
opening parenthesis leaves. -/
inductive StackItem where
  | node (r : Regexp)
  | leftParen

/-- ASCII letters and digits. -/
def isAlnum (c : Char) : Bool :=
  decide ('0' ≤ c ∧ c ≤ '9') || decide ('A' ≤ c ∧ c ≤ 'Z') || decide ('a' ≤ c ∧ c ≤ 'z')

/-- An escaped ASCII character that is not a letter or digit stands for itself. -/
def isPunctEscape (c : Char) : Bool :=
  decide (c.toNat < 0x80) && !isAlnum c

/-- The end point of a class range that starts at `lo`: `lo-hi` when a dash
follows that is not the last character of the class, else `lo` alone. -/
def classRange (lo : Char) (rest : Str) : Option ((Char × Char) × Str) :=
  match rest with
  | dash :: h :: r =>
    if dash = '-' ∧ h ≠ ']' then
      if h = '\\' then
        match r with
        | [] => none
        | e :: r1 =>
          if isPunctEscape e then (if e < lo then none else some ((lo, e), r1)) else none
      else if h < lo then none else some ((lo, h), r)
    else some ((lo, lo), rest)
  | _ => some ((lo, lo), rest)

/-- The items of a bracketed class up to the closing bracket; `first` holds at
the first item, where `]` is an ordinary character. -/
def parseClassItems : Nat → Bool → Str → CharClass → Option (CharClass × Str)
  | 0, _, _, _ => none
  | _ + 1, _, [], _ => none
  | fuel + 1, first, c :: t, acc =>
    if c = ']' ∧ first = false then some (acc, t)
    else if c = '[' ∧ t.head? = some ':' then none
    else if c = '\\' then
      match t with
      | [] => none
      | e :: t1 =>
        if e = 'w' then parseClassItems fuel false t1 (acc ++ perlWord)
        else if isPunctEscape e then
          match classRange e t1 with
          | none => none
          | some (rng, r) => parseClassItems fuel false r (acc ++ [rng])
        else none
    else
      match classRange c t with
      | none => none
      | some (rng, r) => parseClassItems fuel false r (acc ++ [rng])

/-- A bracketed class, after its opening bracket. -/
def parseClass (t : Str) : Option (CharClass × Str) :=
  match t with
  | '^' :: _ => none
  | _ => parseClassItems (t.length + 1) true t []

/-- Concatenation of a sequence of expressions. -/
def concatOf (rs : List Regexp) : Regexp :=
  rs.foldr Regexp.cat Regexp.empty

/-- The expressions above the nearest opening-parenthesis marker, in source
order, and the stack below the marker. -/
def splitAtParen : List StackItem → List Regexp → Option (List Regexp × List StackItem)
  | [], _ => none
  | StackItem.leftParen :: rest, acc => some (acc, rest)
  | StackItem.node r :: rest, acc => splitAtParen rest (r :: acc)

/-- Closing parenthesis: the expressions since the marker become one capture group. -/
def closeGroup (stack : List StackItem) : Option (List StackItem) :=
  match splitAtParen stack [] with
  | none => none
  | some (rs, rest) => some (StackItem.node (Regexp.cap (concatOf rs)) :: rest)

/-- End of the pattern: the stack, free of markers, becomes one concatenation. -/
def finish : List StackItem → List Regexp → Option Regexp
  | [], acc => some (concatOf acc)
  | StackItem.leftParen :: _, _ => none
  | StackItem.node r :: rest, acc => finish rest (r :: acc)

/-- The parser's main loop over the pattern, with the stack (top first) and
whether the previous item was a repetition operator. -/
def parseLoop : Nat → List StackItem → Bool → Str → Option Regexp
  | 0, _, _, _ => none
  | _ + 1, stack, _, [] => finish stack []
  | fuel + 1, stack, lastRepeat, c :: t =>
    if c = '(' then
      if t.head? = some '?' then none
      else parseLoop fuel (StackItem.leftParen :: stack) false t
    else if c = ')' then
      match closeGroup stack with
      | none => none
      | some st => parseLoop fuel st false t
    else if c = '[' then
      match parseClass t with
      | none => none
      | some (cl, r) => parseLoop fuel (StackItem.node (Regexp.cls cl) :: stack) false r
    else if c = '+' then
      if t.head? = some '?' then none
      else if lastRepeat then none
      else
        match stack with
        | StackItem.node r :: rest => parseLoop fuel (StackItem.node (Regexp.plus r) :: rest) true t
        | _ => none
    else if c = '\\' then
      match t with
      | [] => none
      | e :: t1 =>
        if e = 'w' then parseLoop fuel (StackItem.node (Regexp.cls perlWord) :: stack) false t1
        else if isPunctEscape e then
          parseLoop fuel (StackItem.node (Regexp.lit e) :: stack) false t1
        else none
    else if c = '|' ∨ c = '^' ∨ c = '$' ∨ c = '.' ∨ c = '*' ∨ c = '?' ∨ c = '{' then none
    else parseLoop fuel (StackItem.node (Regexp.lit c) :: stack) false t

/-- Model of `regexp.Compile`. -/
def compile (pattern : Str) : Option Regexp :=
  parseLoop (pattern.length + 1) [] false pattern

/-- Repetition one or more times, greedy: after each round another round is
tried before stopping.  A round that consumes nothing ends the repetition. -/
def plusLoop (f : Str → List Str) : Nat → Str → List Str
  | 0, _ => []
  | n + 1, s =>
    (f s).flatMap (fun t => (if t.length < s.length then plusLoop f n t else []) ++ [t])

/-- The ways the expression matches at the head of the input, each given by the
input left after the match, in the order of preference of Go's leftmost-first
matching (that of a backtracking search). -/
def Regexp.run : Regexp → Str → List Str
  | Regexp.empty, s => [s]
  | Regexp.lit c, s =>
    match s with
    | [] => []
    | x :: t => if x = c then [t] else []
  | Regexp.cls cl, s =>
    match s with
    | [] => []
    | x :: t => if classMatches cl x then [t] else []
  | Regexp.cat a b, s => (a.run s).flatMap (fun t => b.run t)
  | Regexp.plus r, s => plusLoop (fun t => r.run t) (s.length + 1) s
  | Regexp.cap r, s => r.run s

/-- The leftmost match in the input: the text skipped before it, the match, and
the input after it. -/
def findFirst (re : Regexp) : Str → Option (Str × Str × Str)
  | [] =>
    match re.run [] with
    | [] => none
    | _ :: _ => some ([], [], [])
  | c :: s =>
    match re.run (c :: s) with
    | t :: _ => some ([], (c :: s).take ((c :: s).length - t.length), t)
    | [] =>
      match findFirst re s with
      | none => none
      | some (pre, m, t) => some (c :: pre, m, t)

/-- The loop of `FindAllString`: successive leftmost matches, each search
starting where the previous match ended; an empty match is dropped when it
touches the previous match, and the search then moves one character on. -/
def findAllLoop (re : Regexp) : Nat → Bool → Str → List Str
  | 0, _, _ => []
  | fuel + 1, atPrevEnd, s =>
    match findFirst re s with
    | none => []
    | some (pre, m, t) =>
      if pre = [] ∧ m = [] then
        let found : List Str := if atPrevEnd then [] else [[]]
        match s with
        | [] => found
        | _ :: s1 => found ++ findAllLoop re fuel false s1
      else m :: findAllLoop re fuel true t

/-- Model of `re.FindAllString(s, -1)`: all successive non-overlapping matches. -/
def findAllString (re : Regexp) (s : Str) : List Str :=
  findAllLoop re (s.length + 1) false s

/-! ## The program (`main.go`) -/

/-- The request URLs `processDomain` builds for a domain, in the order it visits
them (`fmt.Sprintf` with the domain for `%s`, and `%%` for a percent sign). -/
def apis (domain : Str) : List Str :=
  [ "https://dns.bufferover.run/dns?q=.".toList ++ domain,
    "https://riddler.io/search/exportcsv?q=pld:".toList ++ domain,
    "https://api.certspotter.com/v1/issuances?domain=".toList ++ domain ++
      "&include_subdomains=true&expand=dns_names".toList,
    "http://web.archive.org/cdx/search/cdx?url=*.".toList ++ domain ++
      "/*&output=text&fl=original&collapse=urlkey".toList,
    "https://crt.sh/?q=%25.".toList ++ domain ++ "&output=json".toList,
    "https://jldc.me/anubis/subdomains/".toList ++ domain,
    "https://api.threatminer.org/v2/domain.php?q=".toList ++ domain ++ "&rt=5".toList,
    "https://otx.alienvault.com/api/v1/indicators/domain/".toList ++ domain ++
      "/url_list?limit=100&page=1".toList,
    "https://api.hackertarget.com/hostsearch/?q=".toList ++ domain ]

/-- The walk of `extractSubdomainsFromJSON` over the elements of a nested array
(the inner `for _, nested := range sub`). -/
def extractNested (domain : Str) (sub : List JValue) (subdomains : Finset Str) : Finset Str :=
  sub.foldl (fun acc nested =>
    match nested with
    | JValue.str nestedStr => if contains nestedStr domain then insert nestedStr acc else acc
    | _ => acc) subdomains

/-- The function `extractSubdomainsFromJSON`: the set after the call. -/
def extractSubdomainsFromJSON (body domain : Str) (subdomains : Finset Str) : Finset Str :=
  match jsonUnmarshal body with
  | none => subdomains
  | some data =>
    match data with
    | JValue.arr v =>
      v.foldl (fun acc item =>
        match item with
        | JValue.str sub => if contains sub domain then insert sub acc else acc
        | JValue.arr sub => extractNested domain sub acc
        | _ => acc) subdomains
    | JValue.obj v =>
      v.foldl (fun acc kv =>
        match kv.2 with
        | JValue.str sub => if contains sub domain then insert sub acc else acc
        | _ => acc) subdomains
    | _ => subdomains

/-- The pattern `extractSubdomainsFromText` builds:
`([\w.-]+\.` followed by the quoted domain and `)`. -/
def textPattern (domain : Str) : Str :=
  ['(', '[', '\\', 'w', '.', '-', ']', '+', '\\', '.'] ++ quoteMeta domain ++ [')']

/-- The function `extractSubdomainsFromText`: the set after the call, or `none`
when `regexp.MustCompile` panics. -/
def extractSubdomainsFromText (body domain : Str) (subdomains : Finset Str) :
    Option (Finset Str) :=
  match compile (textPattern domain) with
  | none => none
  | some re => some ((findAllString re body).foldl (fun acc m => insert m acc) subdomains)

/-- Outcome of requesting a URL: `http.Get` failed, reading the body failed, or
the body was read. -/
inductive Fetch where
  | getError
  | readError
  | body (b : Str)

/-- The routing test of `processDomain`: whether the body fetched from this URL
goes to the JSON extractor. -/
def isJSONSource (api : Str) : Bool :=
  contains api "crt.sh".toList || contains api "certspotter".toList ||
    contains api "bufferover".toList

/-- One round of the loop of `processDomain` over the URLs. -/
def visitSource (httpGet : Str → Fetch) (domain : Str) (subdomains : Finset Str) (api : Str) :
    Option (Finset Str) :=
  match httpGet api with
  | Fetch.getError => some subdomains
  | Fetch.readError => some subdomains
  | Fetch.body b =>
    if isJSONSource api then some (extractSubdomainsFromJSON b domain subdomains)
    else extractSubdomainsFromText b domain subdomains

/-- The function `processDomain` up to its sending loop: the set it has
collected after visiting every URL, or `none` when it panics. -/
def processDomain (httpGet : Str → Fetch) (domain : Str) : Option (Finset Str) :=
  (apis domain).foldlM (visitSource httpGet domain) ∅

/-- The sending loop of `processDomain`, `for subdomain := range subdomains`:
every member of the set is sent exactly once, in an unspecified order. -/
def Emits (subdomains : Finset Str) (out : List Str) : Prop :=
  out.Nodup ∧ ∀ s, s ∈ out ↔ s ∈ subdomains

/-- The channel `results`: the stream it delivers is an interleaving of what the
workers send, each worker's values in the order it sent them. -/
inductive Interleaving : List (List Str) → List Str → Prop where
  | done (outs : List (List Str)) : (∀ o ∈ outs, o = []) → Interleaving outs []
  | send (outs : List (List Str)) (i : Nat) (x : Str) (rest stream : List Str) :
      outs[i]? = some (x :: rest) → Interleaving (outs.set i rest) stream →
      Interleaving outs (x :: stream)

/-- The workers `main` launches: one run of `processDomain` per input domain. -/
def workers (httpGet : Str → Fetch) (domains : List Str) : List (Option (Finset Str)) :=
  domains.map (processDomain httpGet)

/-- The result streams a run of `main` over the domains can deliver to
`saveResults`: every worker completes and sends its set, the channel interleaves
the workers, and it is closed after the last of them. -/
def ResultStream (httpGet : Str → Fetch) (domains : List Str) (stream : List Str) : Prop :=
  ∃ outs : List (List Str),
    List.Forall₂ (fun w out => ∃ S, w = some S ∧ Emits S out) (workers httpGet domains) outs ∧
    Interleaving outs stream

/-- The function `saveResults` on the values drained from the channel: the
lines written to the output file, or `none` when `os.Create` fails. -/
def saveResults (created : Bool) (results : List Str) : Option (List Str) :=
  if created then some (sortStrings results) else none

/-! ## The specification's words -/

/-- The strings among a list of JSON values. -/
def stringsOf (items : List JValue) : List Str :=
  items.filterMap (fun v => match v with | JValue.str s => some s | _ => none)

/-- The matches the specification describes for the structured extractor: for an
array, its string elements that contain the domain and those of each element
that is itself an array; for an object, its string values that contain the
domain; otherwise nothing. -/
def specJSONMatches (v : JValue) (domain : Str) : Finset Str :=
  match v with
  | JValue.arr items =>
    ((stringsOf items).filter (fun s => domain <:+: s)).toFinset ∪
      ((items.flatMap (fun item => match item with
          | JValue.arr sub => stringsOf sub
          | _ => [])).filter (fun s => domain <:+: s)).toFinset
  | JValue.obj members =>
    ((stringsOf (members.map Prod.snd)).filter (fun s => domain <:+: s)).toFinset
  | _ => ∅

/-- The strings the array branch of the walk looks at: the string elements and
the string elements of the elements that are arrays. -/
def InArray (v : List JValue) (x : Str) : Prop :=
  JValue.str x ∈ v ∨ ∃ sub, JValue.arr sub ∈ v ∧ JValue.str x ∈ sub

/-- The matches one source contributes for a domain: those its extractor finds,
from the empty set, in the body it returned, and nothing when the request or
the read failed. -/
def sourceMatches (httpGet : Str → Fetch) (domain : Str) (api : Str) : Finset Str :=
  match httpGet api with
  | Fetch.body b =>
    if isJSONSource api then extractSubdomainsFromJSON b domain ∅
    else (extractSubdomainsFromText b domain ∅).getD ∅
  | _ => ∅

/-- An example network: the hackertarget source answers the queries for `e.com`
and for `b.e.com` with the one host name `a.b.e.com`, and every other request
fails. -/
def overlapGet (api : Str) : Fetch :=
  if api = "https://api.hackertarget.com/hostsearch/?q=e.com".toList ∨
      api = "https://api.hackertarget.com/hostsearch/?q=b.e.com".toList then
    Fetch.body "a.b.e.com".toList
  else Fetch.getError

/-- An example network in which every source answers with the text `www.crt.sh`. -/
def plainTextGet (_api : Str) : Fetch :=
  Fetch.body "www.crt.sh".toList

/-- The characters of the prefix class `[\w.-]`: letters, digits, underscore,
dot and hyphen. -/
def isPrefixChar (c : Char) : Prop :=
  ('a' ≤ c ∧ c ≤ 'z') ∨ ('A' ≤ c ∧ c ≤ 'Z') ∨ ('0' ≤ c ∧ c ≤ '9') ∨ c = '_' ∨ c = '.' ∨ c = '-'

/-- The expression the pattern of `extractSubdomainsFromText` stands for: a
capture group of one or more prefix characters, a dot, and the domain's
characters as literals. -/
def textRegexp (domain : Str) : Regexp :=
  concatOf [Regexp.cap (concatOf
    ([Regexp.plus (Regexp.cls (perlWord ++ [('.', '.'), ('-', '-')])), Regexp.lit '.'] ++
      domain.map Regexp.lit))]

set_option maxRecDepth 100000

/-! ## Strings, sorting and the result stream -/

theorem contains_iff (s sub : Str) : contains s sub = true ↔ sub <:+: s := by
  induction s with
  | nil => simp [contains, List.isPrefixOf_iff_prefix]
  | cons c s ih =>
    simp only [contains, Bool.or_eq_true, ih, List.isPrefixOf_iff_prefix]
    exact List.infix_cons_iff.symm

theorem sortStrings_sorted (xs : List Str) : (sortStrings xs).Sorted (· ≤ ·) :=
  List.sorted_insertionSort _ xs

theorem sortStrings_perm (xs : List Str) : (sortStrings xs).Perm xs :=
  List.perm_insertionSort _ xs

theorem sortStrings_eq_of_perm {xs ys : List Str} (h : xs.Perm ys) :
    sortStrings xs = sortStrings ys :=
  List.eq_of_perm_of_sorted
    (((sortStrings_perm xs).trans h).trans (sortStrings_perm ys).symm)
    (sortStrings_sorted xs) (sortStrings_sorted ys)

theorem flatten_perm_of_getElem? {outs : List (List Str)} {i : Nat} {x : Str} {rest : List Str}
    (h : outs[i]? = some (x :: rest)) :
    outs.flatten.Perm (x :: (outs.set i rest).flatten) := by
  induction outs generalizing i with
  | nil => simp at h
  | cons o outs ih =>
    cases i with
    | zero =>
      simp only [List.getElem?_cons_zero, Option.some.injEq] at h
      subst h
      simp
    | succ i =>
      simp only [List.getElem?_cons_succ] at h
      simp only [List.flatten_cons, List.set_cons_succ]
      exact ((ih h).append_left o).trans List.perm_middle

theorem interleaving_perm {outs : List (List Str)} {stream : List Str}
    (h : Interleaving outs stream) : stream.Perm outs.flatten := by
  induction h with
  | done outs hall =>
    have : outs.flatten = [] := by
      simp only [List.flatten_eq_nil_iff]
      exact hall
    rw [this]
  | send outs i x rest stream hget _ ih =>
    exact ((List.Perm.cons x ih).trans (flatten_perm_of_getElem? hget).symm)

theorem interleaving_flatten (outs : List (List Str)) : Interleaving outs outs.flatten := by
  induction outs with
  | nil => exact Interleaving.done [] (by simp)
  | cons o outs ih =>
    induction o with
    | nil =>
      simp only [List.flatten_cons, List.nil_append]
      clear * - ih
      generalize outs.flatten = stream at ih
      induction ih with
      | done outs hall =>
        exact Interleaving.done _ (by simpa using hall)
      | send outs i x rest stream hget _ ih2 =>
        exact Interleaving.send _ (i + 1) x rest stream (by simpa using hget)
          (by simpa using ih2)
    | cons x o iho =>
      exact Interleaving.send _ 0 x o _ (by simp) (by simpa using iho)

theorem emits_perm {S : Finset Str} {a b : List Str} (ha : Emits S a) (hb : Emits S b) :
    a.Perm b :=
  (List.perm_ext_iff_of_nodup ha.1 hb.1).2 (fun s => (ha.2 s).trans (hb.2 s).symm)

theorem emissions_flatten_perm {ws : List (Option (Finset Str))} {outs₁ outs₂ : List (List Str)}
    (h₁ : List.Forall₂ (fun w out => ∃ S, w = some S ∧ Emits S out) ws outs₁)
    (h₂ : List.Forall₂ (fun w out => ∃ S, w = some S ∧ Emits S out) ws outs₂) :
    outs₁.flatten.Perm outs₂.flatten := by
  induction h₁ generalizing outs₂ with
  | nil => cases h₂; exact List.Perm.refl _
  | cons hw _ ih =>
    cases h₂ with
    | cons hw2 hrest2 =>
      obtain ⟨S, hS, hE⟩ := hw
      obtain ⟨S2, hS2, hE2⟩ := hw2
      have : S = S2 := by
        rw [hS] at hS2
        exact Option.some.inj hS2
      subst this
      simp only [List.flatten_cons]
      exact (emits_perm hE hE2).append (ih hrest2)

theorem resultStream_perm {httpGet : Str → Fetch} {domains : List Str} {s₁ s₂ : List Str}
    (h₁ : ResultStream httpGet domains s₁) (h₂ : ResultStream httpGet domains s₂) :
    s₁.Perm s₂ := by
  obtain ⟨o₁, hf₁, hi₁⟩ := h₁
  obtain ⟨o₂, hf₂, hi₂⟩ := h₂
  exact ((interleaving_perm hi₁).trans (emissions_flatten_perm hf₁ hf₂)).trans (interleaving_perm hi₂).symm

theorem resultStream_nil_iff (httpGet : Str → Fetch) (stream : List Str) :
    ResultStream httpGet [] stream ↔ stream = [] := by
  constructor
  · rintro ⟨outs, hf, hi⟩
    simp only [workers, List.map_nil] at hf
    cases hf
    cases hi with
    | done _ _ => rfl
    | send _ i x rest stream hget _ => simp at hget
  · rintro rfl
    exact ⟨[], by simp [workers], Interleaving.done [] (by simp)⟩

/-! ## The structured extractor -/

theorem foldl_insert_eq (l : List Str) (S : Finset Str) :
    l.foldl (fun acc m => insert m acc) S = S ∪ l.toFinset := by
  induction l generalizing S with
  | nil => simp
  | cons a l ih =>
    simp only [List.foldl_cons, ih, List.toFinset_cons]
    ext x
    simp only [Finset.mem_union, Finset.mem_insert, List.mem_toFinset]
    tauto

theorem mem_stringsOf (items : List JValue) (x : Str) :
    x ∈ stringsOf items ↔ JValue.str x ∈ items := by
  induction items with
  | nil => simp [stringsOf]
  | cons v items ih =>
    simp only [stringsOf, List.filterMap_cons] at ih ⊢
    cases v <;> simp_all

theorem mem_extractNested (domain : Str) (sub : List JValue) (S : Finset Str) (x : Str) :
    x ∈ extractNested domain sub S ↔ x ∈ S ∨ (JValue.str x ∈ sub ∧ domain <:+: x) := by
  induction sub generalizing S with
  | nil => simp [extractNested]
  | cons v sub ih =>
    simp only [extractNested, List.foldl_cons] at ih ⊢
    rw [ih]
    cases v with
    | str s =>
      by_cases hc : contains s domain = true
      · have hi := (contains_iff s domain).1 hc
        simp only [hc, if_true, Finset.mem_insert, List.mem_cons, JValue.str.injEq]
        constructor
        · rintro ((rfl | h) | h)
          · exact Or.inr ⟨Or.inl rfl, hi⟩
          · exact Or.inl h
          · exact Or.inr ⟨Or.inr h.1, h.2⟩
        · rintro (h | ⟨rfl | h, h2⟩)
          · exact Or.inl (Or.inr h)
          · exact Or.inl (Or.inl rfl)
          · exact Or.inr ⟨h, h2⟩
      · have hi : ¬ domain <:+: s := fun h => hc ((contains_iff s domain).2 h)
        simp only [hc, List.mem_cons, JValue.str.injEq]
        constructor
        · rintro (h | h)
          · exact Or.inl h
          · exact Or.inr ⟨Or.inr h.1, h.2⟩
        · rintro (h | ⟨rfl | h, h2⟩)
          · exact Or.inl h
          · exact absurd h2 hi
          · exact Or.inr ⟨h, h2⟩
    | _ => simp

theorem mem_walkArray (domain : Str) (v : List JValue) (S : Finset Str) (x : Str) :
    x ∈ v.foldl (fun acc item =>
        match item with
        | JValue.str sub => if contains sub domain then insert sub acc else acc
        | JValue.arr sub => extractNested domain sub acc
        | _ => acc) S ↔ x ∈ S ∨ (InArray v x ∧ domain <:+: x) := by
  induction v generalizing S with
  | nil => simp [InArray]
  | cons item v ih =>
    simp only [List.foldl_cons]
    rw [ih]
    have hcons : InArray (item :: v) x ↔
        (item = JValue.str x ∨ ∃ sub, item = JValue.arr sub ∧ JValue.str x ∈ sub) ∨
          InArray v x := by
      simp only [InArray, List.mem_cons]
      constructor
      · rintro ((h | h) | ⟨sub, h | h, h2⟩)
        · exact Or.inl (Or.inl h.symm)
        · exact Or.inr (Or.inl h)
        · exact Or.inl (Or.inr ⟨sub, h.symm, h2⟩)
        · exact Or.inr (Or.inr ⟨sub, h, h2⟩)
      · rintro ((h | ⟨sub, h, h2⟩) | h | ⟨sub, h, h2⟩)
        · exact Or.inl (Or.inl h.symm)
        · exact Or.inr ⟨sub, Or.inl h.symm, h2⟩
        · exact Or.inl (Or.inr h)
        · exact Or.inr ⟨sub, Or.inr h, h2⟩
    rw [hcons]
    cases item with
    | str s =>
      by_cases hc : contains s domain = true
      · have hi := (contains_iff s domain).1 hc
        simp only [hc, if_true, Finset.mem_insert, JValue.str.injEq, reduceCtorEq, false_and,
          exists_false, or_false]
        constructor
        · rintro ((rfl | h) | h)
          · exact Or.inr ⟨Or.inl rfl, hi⟩
          · exact Or.inl h
          · exact Or.inr ⟨Or.inr h.1, h.2⟩
        · rintro (h | ⟨rfl | h, h2⟩)
          · exact Or.inl (Or.inr h)
          · exact Or.inl (Or.inl rfl)
          · exact Or.inr ⟨h, h2⟩
      · have hi : ¬ domain <:+: s := fun h => hc ((contains_iff s domain).2 h)
        simp only [hc, JValue.str.injEq, reduceCtorEq, false_and, exists_false, or_false]
        constructor
        · rintro (h | h)
          · exact Or.inl h
          · exact Or.inr ⟨Or.inr h.1, h.2⟩
        · rintro (h | ⟨rfl | h, h2⟩)
          · exact Or.inl h
          · exact absurd h2 hi
          · exact Or.inr ⟨h, h2⟩
    | arr sub =>
      simp only [mem_extractNested, reduceCtorEq, JValue.arr.injEq, false_or]
      constructor
      · rintro ((h | h) | h)
        · exact Or.inl h
        · exact Or.inr ⟨Or.inl ⟨sub, rfl, h.1⟩, h.2⟩
        · exact Or.inr ⟨Or.inr h.1, h.2⟩
      · rintro (h | ⟨⟨sub2, rfl, h⟩ | h, h2⟩)
        · exact Or.inl (Or.inl h)
        · exact Or.inl (Or.inr ⟨h, h2⟩)
        · exact Or.inr ⟨h, h2⟩
    | _ => simp

theorem mem_walkObject (domain : Str) (v : List (Str × JValue)) (S : Finset Str) (x : Str) :
    x ∈ v.foldl (fun acc kv =>
        match kv.2 with
        | JValue.str sub => if contains sub domain then insert sub acc else acc
        | _ => acc) S ↔ x ∈ S ∨ (JValue.str x ∈ v.map Prod.snd ∧ domain <:+: x) := by
  induction v generalizing S with
  | nil => simp
  | cons kv v ih =>
    simp only [List.foldl_cons]
    rw [ih]
    obtain ⟨k, val⟩ := kv
    cases val with
    | str s =>
      by_cases hc : contains s domain = true
      · have hi := (contains_iff s domain).1 hc
        simp only [hc, if_true, Finset.mem_insert, List.map_cons, List.mem_cons,
          JValue.str.injEq]
        constructor
        · rintro ((rfl | h) | h)
          · exact Or.inr ⟨Or.inl rfl, hi⟩
          · exact Or.inl h
          · exact Or.inr ⟨Or.inr h.1, h.2⟩
        · rintro (h | ⟨rfl | h, h2⟩)
          · exact Or.inl (Or.inr h)
          · exact Or.inl (Or.inl rfl)
          · exact Or.inr ⟨h, h2⟩
      · have hi : ¬ domain <:+: s := fun h => hc ((contains_iff s domain).2 h)
        simp only [hc, List.map_cons, List.mem_cons, JValue.str.injEq]
        constructor
        · rintro (h | h)
          · exact Or.inl h
          · exact Or.inr ⟨Or.inr h.1, h.2⟩
        · rintro (h | ⟨rfl | h, h2⟩)
          · exact Or.inl h
          · exact absurd h2 hi
          · exact Or.inr ⟨h, h2⟩
    | _ => simp

theorem mem_specJSONMatches_arr (items : List JValue) (domain x : Str) :
    x ∈ specJSONMatches (JValue.arr items) domain ↔ InArray items x ∧ domain <:+: x := by
  simp only [specJSONMatches, Finset.mem_union, List.mem_toFinset, List.mem_filter,
    mem_stringsOf, decide_eq_true_eq, List.mem_flatMap, InArray]
  constructor
  · rintro (⟨h, h2⟩ | ⟨⟨item, hitem, hx⟩, h2⟩)
    · exact ⟨Or.inl h, h2⟩
    · cases item with
      | arr sub => exact ⟨Or.inr ⟨sub, hitem, (mem_stringsOf sub x).1 hx⟩, h2⟩
      | _ => simp at hx
  · rintro ⟨h | ⟨sub, hsub, hx⟩, h2⟩
    · exact Or.inl ⟨h, h2⟩
    · exact Or.inr ⟨⟨JValue.arr sub, hsub, (mem_stringsOf sub x).2 hx⟩, h2⟩

theorem extractSubdomainsFromJSON_eq_spec (body domain : Str) (S : Finset Str) (v : JValue)
    (h : jsonUnmarshal body = some v) :
    extractSubdomainsFromJSON body domain S = S ∪ specJSONMatches v domain := by
  ext x
  simp only [extractSubdomainsFromJSON, h, Finset.mem_union]
  cases v with
  | arr items => rw [mem_walkArray, mem_specJSONMatches_arr]
  | obj members =>
    rw [mem_walkObject]
    simp [specJSONMatches, mem_stringsOf]
  | _ => simp [specJSONMatches]

theorem extractSubdomainsFromJSON_union (body domain : Str) (S : Finset Str) :
    extractSubdomainsFromJSON body domain S = S ∪ extractSubdomainsFromJSON body domain ∅ := by
  cases h : jsonUnmarshal body with
  | none => simp [extractSubdomainsFromJSON, h]
  | some v =>
    rw [extractSubdomainsFromJSON_eq_spec body domain S v h,
      extractSubdomainsFromJSON_eq_spec body domain ∅ v h]
    simp

theorem extractSubdomainsFromJSON_contains (body domain : Str) (S : Finset Str) (x : Str)
    (hx : x ∈ extractSubdomainsFromJSON body domain S) (hS : x ∉ S) : domain <:+: x := by
  cases h : jsonUnmarshal body with
  | none =>
    simp only [extractSubdomainsFromJSON, h] at hx
    exact absurd hx hS
  | some v =>
    rw [extractSubdomainsFromJSON_eq_spec body domain S v h, Finset.mem_union] at hx
    rcases hx with hx | hx
    · exact absurd hx hS
    · cases v with
      | arr items => exact ((mem_specJSONMatches_arr items domain x).1 hx).2
      | obj members =>
        simp only [specJSONMatches, List.mem_toFinset, List.mem_filter, decide_eq_true_eq] at hx
        exact hx.2
      | _ => simp [specJSONMatches] at hx

/-! ## The pattern of the unstructured extractor compiles -/

theorem quoteMeta_length_le (d : Str) : d.length ≤ (quoteMeta d).length := by
  induction d with
  | nil => simp [quoteMeta]
  | cons c d ih =>
    simp only [quoteMeta]
    split <;> simp only [List.length_cons] <;> omega

theorem special_escape {c : Char} (h : special c = true) :
    c ≠ 'w' ∧ isPunctEscape c = true := by
  simp only [special, Bool.or_eq_true, decide_eq_true_eq] at h
  rcases h with (((((((((((((h | h) | h) | h) | h) | h) | h) | h) | h) | h) | h) | h) | h) | h) <;>
    subst h <;> exact ⟨by decide, by decide⟩

theorem splitAtParen_nodes (rs : List Regexp) (rest : List StackItem) (acc : List Regexp) :
    splitAtParen (rs.map StackItem.node ++ StackItem.leftParen :: rest) acc =
      some (rs.reverse ++ acc, rest) := by
  induction rs generalizing acc with
  | nil => simp [splitAtParen]
  | cons r rs ih => simp [splitAtParen, ih]

theorem parseLoop_quoteMeta (d : Str) (fuel : Nat) (stack : List StackItem) (rest : Str) :
    parseLoop (fuel + d.length) stack false (quoteMeta d ++ rest) =
      parseLoop fuel (d.reverse.map (fun c => StackItem.node (Regexp.lit c)) ++ stack)
        false rest := by
  induction d generalizing stack with
  | nil => simp [quoteMeta]
  | cons c d ih =>
    have hfuel : fuel + (c :: d).length = (fuel + d.length) + 1 := by
      simp only [List.length_cons]
      omega
    rw [hfuel]
    by_cases hs : special c = true
    · obtain ⟨hw, hp⟩ := special_escape hs
      have hb1 : ('\\' : Char) ≠ '(' := by decide
      have hb2 : ('\\' : Char) ≠ ')' := by decide
      have hb3 : ('\\' : Char) ≠ '[' := by decide
      have hb4 : ('\\' : Char) ≠ '+' := by decide
      simp only [quoteMeta, hs, if_true, List.cons_append, parseLoop, hb1, hb2, hb3, hb4,
        if_false, hw, hp]
      rw [ih]
      simp
    · simp only [special, Bool.or_eq_true, decide_eq_true_eq, not_or] at hs
      obtain ⟨⟨⟨⟨⟨⟨⟨⟨⟨⟨⟨⟨⟨h1, h2⟩, h3⟩, h4⟩, h5⟩, h6⟩, h7⟩, h8⟩, h9⟩, h10⟩, h11⟩, h12⟩, h13⟩,
        h14⟩ := hs
      have hq : quoteMeta (c :: d) = c :: quoteMeta d := by
        simp [quoteMeta, special, h1, h2, h3, h4, h5, h6, h7, h8, h9, h10, h11, h12, h13, h14]
      simp only [hq, List.cons_append, parseLoop, h1, h2, h3, h4, h5, h6, h7, h8, h9, h11, h13,
        h14, if_false, or_self]
      rw [ih]
      simp

theorem parseLoop_close (fuel : Nat) (rs : List Regexp) :
    parseLoop (fuel + 2) (rs.map StackItem.node ++ StackItem.leftParen :: []) false [')'] =
      some (concatOf [Regexp.cap (concatOf rs.reverse)]) := by
  simp [parseLoop, closeGroup, splitAtParen_nodes, finish]

theorem compile_textPattern (d : Str) : compile (textPattern d) = some (textRegexp d) := by
  obtain ⟨k, hk⟩ := Nat.exists_eq_add_of_le (quoteMeta_length_le d)
  have hlen : (textPattern d).length + 1 = ((k + 8) + d.length) + 4 := by
    simp only [textPattern, List.length_append, List.length_cons, List.length_nil, hk]
    omega
  have hcls : parseClass (['\\', 'w', '.', '-', ']', '+', '\\', '.'] ++ quoteMeta d ++ [')']) =
      some (perlWord ++ [('.', '.'), ('-', '-')], ['+', '\\', '.'] ++ quoteMeta d ++ [')']) := by
    simp [parseClass, parseClassItems, classRange, isPunctEscape, isAlnum]
  have hhead : parseLoop (((k + 8) + d.length) + 4) [] false (textPattern d) =
      parseLoop ((k + 8) + d.length)
        [StackItem.node (Regexp.lit '.'),
          StackItem.node (Regexp.plus (Regexp.cls (perlWord ++ [('.', '.'), ('-', '-')]))),
          StackItem.leftParen] false (quoteMeta d ++ [')']) := by
    have h := hcls
    simp only [List.cons_append, List.nil_append] at h
    simp [textPattern, parseLoop, h, isPunctEscape, isAlnum]
  rw [compile, hlen, hhead, parseLoop_quoteMeta]
  have hstack : d.reverse.map (fun c => StackItem.node (Regexp.lit c)) ++
      [StackItem.node (Regexp.lit '.'),
        StackItem.node (Regexp.plus (Regexp.cls (perlWord ++ [('.', '.'), ('-', '-')]))),
        StackItem.leftParen] =
      (((d.map Regexp.lit).reverse ++
        [Regexp.lit '.', Regexp.plus (Regexp.cls (perlWord ++ [('.', '.'), ('-', '-')]))]).map
          StackItem.node) ++ StackItem.leftParen :: [] := by
    simp [List.map_reverse]
  rw [hstack, show k + 8 = (k + 6) + 2 from rfl, parseLoop_close]
  simp [textRegexp]

/-! ## What the pattern matches -/

theorem plusLoop_suffix (f : Str → List Str) (hf : ∀ s t, t ∈ f s → ∃ m, s = m ++ t)
    (n : Nat) (s t : Str) (h : t ∈ plusLoop f n s) : ∃ m, s = m ++ t := by
  induction n generalizing s with
  | zero => simp [plusLoop] at h
  | succ n ih =>
    simp only [plusLoop, List.mem_flatMap, List.mem_append, List.mem_singleton] at h
    obtain ⟨u, hu, h | h⟩ := h
    · obtain ⟨m₁, rfl⟩ := hf s u hu
      split at h
      · obtain ⟨m₂, rfl⟩ := ih u h
        exact ⟨m₁ ++ m₂, by simp⟩
      · simp at h
    · subst h
      exact hf s t hu

theorem run_suffix (re : Regexp) : ∀ s t : Str, t ∈ re.run s → ∃ m, s = m ++ t := by
  induction re with
  | empty =>
    intro s t h
    simp only [Regexp.run, List.mem_singleton] at h
    exact ⟨[], by simp [h]⟩
  | lit c =>
    intro s t h
    cases s with
    | nil => simp [Regexp.run] at h
    | cons x s =>
      simp only [Regexp.run] at h
      split at h
      · simp only [List.mem_singleton] at h
        exact ⟨[x], by simp [h]⟩
      · simp at h
  | cls cl =>
    intro s t h
    cases s with
    | nil => simp [Regexp.run] at h
    | cons x s =>
      simp only [Regexp.run] at h
      split at h
      · simp only [List.mem_singleton] at h
        exact ⟨[x], by simp [h]⟩
      · simp at h
  | cat a b iha ihb =>
    intro s t h
    simp only [Regexp.run, List.mem_flatMap] at h
    obtain ⟨u, hu, ht⟩ := h
    obtain ⟨m₁, rfl⟩ := iha s u hu
    obtain ⟨m₂, rfl⟩ := ihb u t ht
    exact ⟨m₁ ++ m₂, by simp⟩
  | plus r ih =>
    intro s t h
    simp only [Regexp.run] at h
    exact plusLoop_suffix _ ih _ s t h
  | cap r ih =>
    intro s t h
    simp only [Regexp.run] at h
    exact ih s t h

theorem mem_run_lits (d s t : Str) :
    t ∈ (concatOf (d.map Regexp.lit)).run s ↔ s = d ++ t := by
  induction d generalizing s with
  | nil =>
    simp only [concatOf, List.map_nil, List.foldr_nil, Regexp.run, List.mem_singleton,
      List.nil_append]
    exact eq_comm
  | cons c d ih =>
    simp only [concatOf, List.map_cons, List.foldr_cons, Regexp.run, List.mem_flatMap] at ih ⊢
    constructor
    · rintro ⟨u, hu, ht⟩
      cases s with
      | nil => simp at hu
      | cons x s =>
        simp only at hu
        split at hu
        · simp only [List.mem_singleton] at hu
          subst hu
          rename_i hx
          rw [(ih u).1 ht, hx]
          rfl
        · simp at hu
    · rintro rfl
      exact ⟨d ++ t, by simp, (ih (d ++ t)).2 rfl⟩

theorem mem_plusLoop_cls (cl : CharClass) (n : Nat) (s t : Str)
    (h : t ∈ plusLoop (fun u => (Regexp.cls cl).run u) n s) :
    ∃ P, P ≠ [] ∧ (∀ c ∈ P, classMatches cl c = true) ∧ s = P ++ t := by
  induction n generalizing s with
  | zero => simp [plusLoop] at h
  | succ n ih =>
    simp only [plusLoop, List.mem_flatMap, List.mem_append, List.mem_singleton] at h
    obtain ⟨u, hu, h⟩ := h
    cases s with
    | nil => simp [Regexp.run] at hu
    | cons x s =>
      simp only [Regexp.run] at hu
      split at hu
      · rename_i hx
        simp only [List.mem_singleton] at hu
        subst hu
        rcases h with h | h
        · split at h
          · obtain ⟨P, _, hP, rfl⟩ := ih u h
            refine ⟨x :: P, by simp, ?_, by simp⟩
            intro c hc
            rcases List.mem_cons.1 hc with rfl | hc
            · exact hx
            · exact hP c hc
          · simp at h
        · subst h
          exact ⟨[x], by simp, by simpa using hx, by simp⟩
      · simp at hu

theorem classMatches_isPrefixChar {c : Char}
    (h : classMatches (perlWord ++ [('.', '.'), ('-', '-')]) c = true) : isPrefixChar c := by
  simp only [classMatches, perlWord, List.cons_append, List.nil_append, List.any_cons,
    List.any_nil, Bool.or_false, Bool.or_eq_true, Bool.and_eq_true, decide_eq_true_eq] at h
  unfold isPrefixChar
  rcases h with h | h | h | h | h | h
  · exact Or.inr (Or.inr (Or.inl h))
  · exact Or.inr (Or.inl h)
  · exact Or.inr (Or.inr (Or.inr (Or.inl (le_antisymm h.2 h.1))))
  · exact Or.inl h
  · exact Or.inr (Or.inr (Or.inr (Or.inr (Or.inl (le_antisymm h.2 h.1)))))
  · exact Or.inr (Or.inr (Or.inr (Or.inr (Or.inr (le_antisymm h.2 h.1)))))

theorem mem_run_textRegexp (d s t : Str) (h : t ∈ (textRegexp d).run s) :
    ∃ P, P ≠ [] ∧ (∀ c ∈ P, isPrefixChar c) ∧ s = P ++ '.' :: d ++ t := by
  simp only [textRegexp, concatOf, List.cons_append, List.nil_append, List.foldr_cons,
    List.foldr_nil, Regexp.run, List.mem_flatMap, List.mem_singleton] at h
  obtain ⟨t', ⟨u, hu, w, hw, ht⟩, rfl⟩ := h
  obtain ⟨P, hP0, hP, rfl⟩ := mem_plusLoop_cls _ _ _ _ hu
  have hlits := (mem_run_lits d w t).1 (by simpa [concatOf] using ht)
  cases u with
  | nil => simp at hw
  | cons x u =>
    simp only at hw
    split at hw
    · rename_i hx
      simp only [List.mem_singleton] at hw
      subst hw hx hlits
      exact ⟨P, hP0, fun c hc => classMatches_isPrefixChar (hP c hc), by simp⟩
    · simp at hw

theorem findFirst_spec (re : Regexp) (s pre m t : Str) (h : findFirst re s = some (pre, m, t)) :
    s = pre ++ (m ++ t) ∧ t ∈ re.run (m ++ t) := by
  induction s generalizing pre with
  | nil =>
    simp only [findFirst] at h
    split at h
    · simp at h
    · rename_i u us hrun
      simp only [Option.some.injEq, Prod.mk.injEq] at h
      obtain ⟨rfl, rfl, rfl⟩ := h
      have hu : u ∈ re.run [] := by simp [hrun]
      obtain ⟨m', hm'⟩ := run_suffix re [] u hu
      have : u = [] := by
        have := congrArg List.length hm'
        simp only [List.length_nil, List.length_append] at this
        exact List.eq_nil_of_length_eq_zero (by omega)
      subst this
      exact ⟨rfl, hu⟩
  | cons c s ih =>
    simp only [findFirst] at h
    split at h
    · rename_i u us hrun
      simp only [Option.some.injEq, Prod.mk.injEq] at h
      obtain ⟨rfl, rfl, rfl⟩ := h
      have hu : u ∈ re.run (c :: s) := by simp [hrun]
      obtain ⟨m', hm'⟩ := run_suffix re (c :: s) u hu
      have htake : List.take ((c :: s).length - u.length) (c :: s) = m' := by
        rw [hm']
        exact List.take_left' (by simp)
      rw [htake, ← hm']
      exact ⟨rfl, hu⟩
    · split at h
      · simp at h
      · rename_i pre' m' t' hrec
        simp only [Option.some.injEq, Prod.mk.injEq] at h
        obtain ⟨rfl, rfl, rfl⟩ := h
        obtain ⟨h1, h2⟩ := ih pre' hrec
        exact ⟨by rw [h1]; rfl, h2⟩

theorem findAllLoop_spec (re : Regexp) (fuel : Nat) (atPrevEnd : Bool) (s m : Str)
    (h : m ∈ findAllLoop re fuel atPrevEnd s) :
    ∃ pre t, s = pre ++ (m ++ t) ∧ t ∈ re.run (m ++ t) := by
  induction fuel generalizing atPrevEnd s with
  | zero => simp [findAllLoop] at h
  | succ fuel ih =>
    simp only [findAllLoop] at h
    split at h
    · simp at h
    · rename_i pre m₀ t₀ hfirst
      obtain ⟨hs, hrun⟩ := findFirst_spec re s pre m₀ t₀ hfirst
      split at h
      · rename_i hempty
        obtain ⟨rfl, rfl⟩ := hempty
        have hfound : ∀ x ∈ (if atPrevEnd = true then ([] : List Str) else [[]]), x = [] := by
          intro x hx
          split at hx <;> simp at hx
          exact hx
        cases s with
        | nil =>
          simp only at h
          have := hfound m h
          subst this
          exact ⟨[], t₀, hs, hrun⟩
        | cons c s₁ =>
          simp only [List.mem_append] at h
          rcases h with h | h
          · have := hfound m h
            subst this
            exact ⟨[], t₀, hs, hrun⟩
          · obtain ⟨pre', t, h1, h2⟩ := ih false s₁ h
            exact ⟨c :: pre', t, by rw [h1]; rfl, h2⟩
      · rcases List.mem_cons.1 h with rfl | h
        · exact ⟨pre, t₀, hs, hrun⟩
        · obtain ⟨pre', t, h1, h2⟩ := ih true t₀ h
          exact ⟨pre ++ m₀ ++ pre', t, by rw [hs, h1]; simp, h2⟩

theorem mem_findAllString_text (d body m : Str) (h : m ∈ findAllString (textRegexp d) body) :
    m <:+: body ∧ ∃ P, P ≠ [] ∧ (∀ c ∈ P, isPrefixChar c) ∧ m = P ++ '.' :: d := by
  obtain ⟨pre, t, hs, hrun⟩ := findAllLoop_spec _ _ _ _ _ h
  refine ⟨⟨pre, t, by rw [hs]; simp⟩, ?_⟩
  obtain ⟨P, hP0, hP, hm⟩ := mem_run_textRegexp d _ _ hrun
  refine ⟨P, hP0, hP, ?_⟩
  have : m ++ t = (P ++ '.' :: d) ++ t := by rw [hm]
  exact List.append_cancel_right this

theorem extractSubdomainsFromText_eq (body d : Str) (S : Finset Str) :
    extractSubdomainsFromText body d S =
      some (S ∪ (findAllString (textRegexp d) body).toFinset) := by
  simp [extractSubdomainsFromText, compile_textPattern, foldl_insert_eq]

/-! ## The per-domain worker -/

theorem extractSubdomainsFromText_contains (body d : Str) (x : Str)
    (hx : x ∈ findAllString (textRegexp d) body) : d <:+: x := by
  obtain ⟨_, P, _, _, rfl⟩ := mem_findAllString_text d body x hx
  exact ⟨P ++ ['.'], [], by simp⟩

theorem visitSource_eq (httpGet : Str → Fetch) (domain : Str) (S : Finset Str) (api : Str) :
    visitSource httpGet domain S api = some (S ∪ sourceMatches httpGet domain api) := by
  unfold visitSource sourceMatches
  cases httpGet api with
  | getError => simp
  | readError => simp
  | body b =>
    by_cases hj : isJSONSource api = true
    · simp only [hj, if_true]
      rw [extractSubdomainsFromJSON_union]
    · simp only [hj, if_false, extractSubdomainsFromText_eq, Option.getD_some]
      simp

theorem foldlM_visitSource (httpGet : Str → Fetch) (domain : Str) (l : List Str)
    (S : Finset Str) :
    l.foldlM (visitSource httpGet domain) S =
      some (S ∪ l.toFinset.biUnion (sourceMatches httpGet domain)) := by
  induction l generalizing S with
  | nil => simp
  | cons api l ih =>
    simp only [List.foldlM_cons, visitSource_eq, Option.some_bind, Option.bind_eq_bind, ih,
      List.toFinset_cons, Finset.biUnion_insert, Finset.union_assoc]

theorem processDomain_eq (httpGet : Str → Fetch) (domain : Str) :
    processDomain httpGet domain =
      some ((apis domain).toFinset.biUnion (sourceMatches httpGet domain)) := by
  simp [processDomain, foldlM_visitSource]

theorem sourceMatches_contains (httpGet : Str → Fetch) (domain api x : Str)
    (hx : x ∈ sourceMatches httpGet domain api) : domain <:+: x := by
  unfold sourceMatches at hx
  cases h : httpGet api with
  | getError => simp [h] at hx
  | readError => simp [h] at hx
  | body b =>
    simp only [h] at hx
    split at hx
    · exact extractSubdomainsFromJSON_contains b domain ∅ x hx (by simp)
    · simp only [extractSubdomainsFromText_eq, Option.getD_some, Finset.empty_union,
        List.mem_toFinset] at hx
      exact extractSubdomainsFromText_contains b domain x hx

theorem processDomain_contains (httpGet : Str → Fetch) (domain : Str) (S : Finset Str)
    (h : processDomain httpGet domain = some S) (x : Str) (hx : x ∈ S) : domain <:+: x := by
  rw [processDomain_eq, Option.some.injEq] at h
  rw [← h, Finset.mem_biUnion] at hx
  obtain ⟨api, _, hapi⟩ := hx
  exact sourceMatches_contains httpGet domain api x hapi

theorem emissions_of_workers (httpGet : Str → Fetch) (domains : List Str)
    (outs : List (List Str))
    (h : List.Forall₂ (fun w out => ∃ S, w = some S ∧ Emits S out) (workers httpGet domains)
      outs) :
    ∀ out ∈ outs, ∃ d ∈ domains, ∃ S, processDomain httpGet d = some S ∧ Emits S out := by
  induction domains generalizing outs with
  | nil =>
    simp only [workers, List.map_nil] at h
    cases h
    simp
  | cons d domains ih =>
    simp only [workers, List.map_cons] at h
    cases h with
    | cons hd hrest =>
      intro out hout
      rcases List.mem_cons.1 hout with rfl | hout
      · obtain ⟨S, hS, hE⟩ := hd
        exact ⟨d, by simp, S, hS, hE⟩
      · obtain ⟨d', hd', hrest'⟩ := ih _ hrest out hout
        exact ⟨d', List.mem_cons_of_mem _ hd', hrest'⟩

theorem resultStream_exists (httpGet : Str → Fetch) (domains : List Str) :
    ∃ stream, ResultStream httpGet domains stream := by
  refine ⟨_, domains.map (fun d =>
    ((apis d).toFinset.biUnion (sourceMatches httpGet d)).toList), ?_, interleaving_flatten _⟩
  induction domains with
  | nil => simp [workers]
  | cons d domains ih =>
    simp only [workers, List.map_cons] at ih ⊢
    refine List.Forall₂.cons ⟨_, processDomain_eq httpGet d, ?_, ?_⟩ ih
    · exact Finset.nodup_toList _
    · intro s
      exact Finset.mem_toList

theorem overlap_stream :
    ResultStream overlapGet ["e.com".toList, "b.e.com".toList]
      ["a.b.e.com".toList, "a.b.e.com".toList] := by
  refine ⟨[["a.b.e.com".toList], ["a.b.e.com".toList]], ?_, ?_⟩
  · have h1 : processDomain overlapGet "e.com".toList = some {"a.b.e.com".toList} := by decide
    have h2 : processDomain overlapGet "b.e.com".toList = some {"a.b.e.com".toList} := by decide
    have hE : Emits {"a.b.e.com".toList} ["a.b.e.com".toList] := by
      refine ⟨by simp, fun s => by simp⟩
    exact List.Forall₂.cons ⟨_, h1, hE⟩ (List.Forall₂.cons ⟨_, h2, hE⟩ List.Forall₂.nil)
  · refine Interleaving.send _ 0 _ [] _ (by simp) ?_
    refine Interleaving.send _ 1 _ [] _ (by simp) ?_
    exact Interleaving.done _ (by simp)

/-! ## The fuel of the matching loops is never exhausted -/

theorem plusLoop_fuel (f : Str → List Str) (n m : Nat) (s : Str)
    (hn : s.length < n) (hm : s.length < m) : plusLoop f n s = plusLoop f m s := by
  induction n generalizing m s with
  | zero => omega
  | succ n ih =>
    cases m with
    | zero => omega
    | succ m =>
      simp only [plusLoop]
      congr 1
      funext t
      by_cases ht : t.length < s.length
      · simp only [ht, if_true]
        rw [ih m t (by omega) (by omega)]
      · simp only [ht, if_false]

theorem findAllLoop_fuel (re : Regexp) (n m : Nat) (atPrevEnd : Bool) (s : Str)
    (hn : s.length < n) (hm : s.length < m) :
    findAllLoop re n atPrevEnd s = findAllLoop re m atPrevEnd s := by
  induction n generalizing m atPrevEnd s with
  | zero => omega
  | succ n ih =>
    cases m with
    | zero => omega
    | succ m =>
      simp only [findAllLoop]
      cases hfirst : findFirst re s with
      | none => rfl
      | some r =>
        obtain ⟨pre, m₀, t₀⟩ := r
        obtain ⟨hs, _⟩ := findFirst_spec re s pre m₀ t₀ hfirst
        simp only
        by_cases hempty : pre = [] ∧ m₀ = []
        · simp only [hempty, and_self, if_true]
          cases s with
          | nil => rfl
          | cons c s₁ =>
            simp only
            rw [ih m false s₁ (by simp only [List.length_cons] at hn; omega)
              (by simp only [List.length_cons] at hm; omega)]
        · simp only [hempty, if_false]
          have hlen : t₀.length < s.length := by
            have h1 := congrArg List.length hs
            simp only [List.length_append] at h1
            have h2 : 0 < pre.length + m₀.length := by
              rcases Nat.eq_zero_or_pos (pre.length + m₀.length) with h0 | h0
              · exfalso
                apply hempty
                exact ⟨List.eq_nil_of_length_eq_zero (by omega),
                  List.eq_nil_of_length_eq_zero (by omega)⟩
              · exact h0
            omega
          rw [ih m true t₀ (by omega) (by omega)]

/-! ## Runs that agree on every request -/

theorem sourceMatches_congr (g₁ g₂ : Str → Fetch) (domain api : Str) (h : g₁ api = g₂ api) :
    sourceMatches g₁ domain api = sourceMatches g₂ domain api := by
  simp only [sourceMatches, h]

theorem processDomain_congr (g₁ g₂ : Str → Fetch) (domain : Str)
    (h : ∀ api ∈ apis domain, g₁ api = g₂ api) :
    processDomain g₁ domain = processDomain g₂ domain := by
  rw [processDomain_eq, processDomain_eq]
  have hU : (apis domain).toFinset.biUnion (sourceMatches g₁ domain) =
      (apis domain).toFinset.biUnion (sourceMatches g₂ domain) :=
    Finset.biUnion_congr rfl (fun api hapi =>
      sourceMatches_congr g₁ g₂ domain api (h api (List.mem_toFinset.1 hapi)))
  rw [hU]

theorem resultStream_congr (g₁ g₂ : Str → Fetch) (domains : List Str) (stream : List Str)
    (h : ∀ d ∈ domains, ∀ api ∈ apis d, g₁ api = g₂ api)
    (hs : ResultStream g₁ domains stream) : ResultStream g₂ domains stream := by
  have hw : workers g₁ domains = workers g₂ domains := by
    simp only [workers]
    exact List.map_congr_left (fun d hd => processDomain_congr g₁ g₂ d (h d hd))
  unfold ResultStream at hs ⊢
  rw [← hw]
  exact hs

/-! ## The claims -/

/-- C1 (the code departs from the claim): a run over the domains `e.com` and
`b.e.com`, whose workers both find `a.b.e.com`, delivers that string twice, and
`saveResults`, which sorts and does not remove duplicates, writes it twice: the
written list is not strictly increasing. -/
theorem C1_saveResults_keeps_duplicates :
    ResultStream overlapGet ["e.com".toList, "b.e.com".toList]
      ["a.b.e.com".toList, "a.b.e.com".toList] ∧
    saveResults true ["a.b.e.com".toList, "a.b.e.com".toList] =
      some ["a.b.e.com".toList, "a.b.e.com".toList] ∧
    ¬ List.Sorted (· < ·) ["a.b.e.com".toList, "a.b.e.com".toList] ∧
    ¬ List.Nodup ["a.b.e.com".toList, "a.b.e.com".toList] :=
  ⟨overlap_stream, by decide, by decide, by decide⟩

/-- C2: every string `extractSubdomainsFromJSON` or `extractSubdomainsFromText`
adds to the set contains the domain as a contiguous substring, and every line
`saveResults` writes at the end of a run is a member of the set of the worker of
some input domain and contains that domain. -/
theorem C2_matches_contain_domain :
    (∀ (body domain : Str) (S : Finset Str) (x : Str),
      x ∈ extractSubdomainsFromJSON body domain S → x ∉ S → domain <:+: x) ∧
    (∀ (body domain : Str) (S : Finset Str),
      ∃ S', extractSubdomainsFromText body domain S = some S' ∧
        ∀ x ∈ S', x ∉ S → domain <:+: x) ∧
    (∀ (httpGet : Str → Fetch) (domains : List Str) (stream lines : List Str),
      ResultStream httpGet domains stream → saveResults true stream = some lines →
      ∀ s ∈ lines, ∃ D ∈ domains,
        (∃ S, processDomain httpGet D = some S ∧ s ∈ S) ∧ D <:+: s) := by
  refine ⟨extractSubdomainsFromJSON_contains, ?_, ?_⟩
  · intro body domain S
    refine ⟨_, extractSubdomainsFromText_eq body domain S, ?_⟩
    intro x hx hS
    rcases Finset.mem_union.1 hx with hx | hx
    · exact absurd hx hS
    · exact extractSubdomainsFromText_contains body domain x (List.mem_toFinset.1 hx)
  · intro httpGet domains stream lines hstream hsave s hs
    simp only [saveResults, if_true, Option.some.injEq] at hsave
    subst hsave
    have hs1 : s ∈ stream := (sortStrings_perm stream).mem_iff.1 hs
    obtain ⟨outs, hf, hi⟩ := hstream
    have hs2 : s ∈ outs.flatten := (interleaving_perm hi).mem_iff.1 hs1
    obtain ⟨out, hout, hsout⟩ := List.mem_flatten.1 hs2
    obtain ⟨D, hD, S, hS, hE⟩ := emissions_of_workers httpGet domains outs hf out hout
    have hsS : s ∈ S := (hE.2 s).1 hsout
    exact ⟨D, hD, ⟨S, hS, hsS⟩, processDomain_contains httpGet D S hS s hsS⟩

theorem C2_matches_contain_domain_witness :
    ∃ D ∈ ["e.com".toList, "b.e.com".toList],
      (∃ S, processDomain overlapGet D = some S ∧ "a.b.e.com".toList ∈ S) ∧
        D <:+: "a.b.e.com".toList :=
  C2_matches_contain_domain.2.2 overlapGet ["e.com".toList, "b.e.com".toList]
    ["a.b.e.com".toList, "a.b.e.com".toList] ["a.b.e.com".toList, "a.b.e.com".toList]
    overlap_stream (by decide) "a.b.e.com".toList (by simp)

/-- C3: when the body decodes to the JSON value `v`, the set after
`extractSubdomainsFromJSON` is the starting set united with the matches the
specification describes for `v` (`specJSONMatches`): the strings containing the
domain among the elements of an array and among the elements of its elements
that are arrays, or among the values of an object.  The specification's example
yields `a`, `b` and `c.example.com`; a string three arrays deep, in an object
inside an array, in an array or object that is an object's value, or an object
key, is not added. -/
theorem C3_structured_walk :
    (∀ (body : Str) (v : JValue) (domain : Str) (S : Finset Str),
      jsonUnmarshal body = some v →
      extractSubdomainsFromJSON body domain S = S ∪ specJSONMatches v domain) ∧
    extractSubdomainsFromJSON
      "[\"a.example.com\",\"b.example.com\",[\"c.example.com\",\"x.other.com\"]]".toList
      "example.com".toList ∅ =
      {"a.example.com".toList, "b.example.com".toList, "c.example.com".toList} ∧
    extractSubdomainsFromJSON "[[[\"d.example.com\"]]]".toList "example.com".toList ∅ = ∅ ∧
    extractSubdomainsFromJSON "[\x7b\"k\":\"d.example.com\"\x7d]".toList "example.com".toList ∅ = ∅ ∧
    extractSubdomainsFromJSON "\x7b\"k\":[\"d.example.com\"]\x7d".toList "example.com".toList ∅ = ∅ ∧
    extractSubdomainsFromJSON "\x7b\"k\":\x7b\"j\":\"d.example.com\"\x7d\x7d".toList "example.com".toList ∅
      = ∅ ∧
    extractSubdomainsFromJSON "\x7b\"k.example.com\":\"v\"\x7d".toList "example.com".toList ∅ = ∅ := by
  refine ⟨?_, by decide, by decide, by decide, by decide, by decide, by decide⟩
  intro body v domain S h
  exact extractSubdomainsFromJSON_eq_spec body domain S v h

theorem C3_structured_walk_witness :
    extractSubdomainsFromJSON
      "[\"a.example.com\",\"b.example.com\",[\"c.example.com\",\"x.other.com\"]]".toList
      "example.com".toList ∅ =
      ∅ ∪ specJSONMatches
        (JValue.arr [JValue.str "a.example.com".toList, JValue.str "b.example.com".toList,
          JValue.arr [JValue.str "c.example.com".toList, JValue.str "x.other.com".toList]])
        "example.com".toList :=
  C3_structured_walk.1 _ _ _ _ rfl

/-- C4: for every domain the pattern of `extractSubdomainsFromText` compiles, to
a capture group of one or more prefix characters, a dot and the domain's own
characters as literals; every string the extractor adds occurs in the body as a
contiguous substring and is a non-empty run of letters, digits, underscores,
dots and hyphens, then a dot, then the domain itself.  For the domain `a+b.com`
and the body `x.a+b.com x.aab.com` the result is exactly `x.a+b.com`. -/
theorem C4_text_pattern :
    (∀ domain : Str, compile (textPattern domain) = some (textRegexp domain)) ∧
    (∀ (body domain : Str) (S : Finset Str),
      ∃ S', extractSubdomainsFromText body domain S = some S' ∧
        ∀ x ∈ S', x ∉ S →
          x <:+: body ∧
            ∃ P : Str, P ≠ [] ∧ (∀ c ∈ P, isPrefixChar c) ∧ x = P ++ '.' :: domain) ∧
    extractSubdomainsFromText "x.a+b.com x.aab.com".toList "a+b.com".toList ∅ =
      some {"x.a+b.com".toList} := by
  refine ⟨compile_textPattern, ?_, by decide⟩
  intro body domain S
  refine ⟨_, extractSubdomainsFromText_eq body domain S, ?_⟩
  intro x hx hS
  rcases Finset.mem_union.1 hx with hx | hx
  · exact absurd hx hS
  · exact mem_findAllString_text domain body x (List.mem_toFinset.1 hx)

theorem C4_text_pattern_witness :
    ∃ S', extractSubdomainsFromText "x.a+b.com x.aab.com".toList "a+b.com".toList ∅ = some S' ∧
      ∀ x ∈ S', x ∉ (∅ : Finset Str) →
        x <:+: "x.a+b.com x.aab.com".toList ∧
          ∃ P : Str, P ≠ [] ∧ (∀ c ∈ P, isPrefixChar c) ∧ x = P ++ '.' :: "a+b.com".toList :=
  C4_text_pattern.2.1 _ _ _

/-- C5 as stated fails: on the body `see sub1.example.com and SUB2.example.com here`
the result of `extractSubdomainsFromText` is not the set holding `sub1.example.com`
alone. -/
theorem C5_uppercase_candidate_collected :
    extractSubdomainsFromText "see sub1.example.com and SUB2.example.com here".toList
      "example.com".toList ∅ ≠ some {"sub1.example.com".toList} := by
  rw [extractSubdomainsFromText_eq]
  have hall : findAllString (textRegexp "example.com".toList)
      "see sub1.example.com and SUB2.example.com here".toList =
      ["sub1.example.com".toList, "SUB2.example.com".toList] := by decide
  rw [hall]
  intro h
  have h2 := Option.some.inj h
  have hm : "SUB2.example.com".toList ∈ ({"sub1.example.com".toList} : Finset Str) := by
    rw [← h2]
    simp
  exact absurd hm (by decide)

/-- C5 (amended): on the body `see sub1.example.com and SUB2.example.com here` and
the domain `example.com`, `extractSubdomainsFromText` from the empty set yields
exactly `sub1.example.com` and `SUB2.example.com`: the prefix class holds the
upper-case letters.  Only the domain part is matched case-sensitively: on the
body `see sub1.example.com and sub2.EXAMPLE.COM here` the result is
`sub1.example.com` alone. -/
theorem C5_case_sensitive_in_domain_only :
    extractSubdomainsFromText "see sub1.example.com and SUB2.example.com here".toList
      "example.com".toList ∅ =
      some {"sub1.example.com".toList, "SUB2.example.com".toList} ∧
    extractSubdomainsFromText "see sub1.example.com and sub2.EXAMPLE.COM here".toList
      "example.com".toList ∅ = some {"sub1.example.com".toList} := by
  constructor
  · rw [extractSubdomainsFromText_eq]
    have hall : findAllString (textRegexp "example.com".toList)
        "see sub1.example.com and SUB2.example.com here".toList =
        ["sub1.example.com".toList, "SUB2.example.com".toList] := by decide
    rw [hall]
    simp
  · rw [extractSubdomainsFromText_eq]
    have hall : findAllString (textRegexp "example.com".toList)
        "see sub1.example.com and sub2.EXAMPLE.COM here".toList =
        ["sub1.example.com".toList] := by decide
    rw [hall]
    simp

/-- C6: for every domain and every outcome of every request, `processDomain`
completes with a set whose members are exactly the matches of the sources that
returned a body (`sourceMatches`), and it sends each of them exactly once.  A
body that is not valid JSON leaves the set as it was; a round of the loop whose
request or read failed, or whose structured body is malformed, returns the set
unchanged, and every round returns a set that holds the set it was given. -/
theorem C6_worker_emits_union (httpGet : Str → Fetch) (domain : Str) :
    ∃ S, processDomain httpGet domain = some S ∧
      (∀ s, s ∈ S ↔ ∃ api ∈ apis domain, s ∈ sourceMatches httpGet domain api) ∧
      (∀ out, Emits S out →
        out.Nodup ∧ ∀ s, s ∈ out ↔ ∃ api ∈ apis domain, s ∈ sourceMatches httpGet domain api) ∧
      (∀ (body : Str) (S₀ : Finset Str), jsonUnmarshal body = none →
        extractSubdomainsFromJSON body domain S₀ = S₀) ∧
      (∀ (S₀ : Finset Str) (api : Str),
        (httpGet api = Fetch.getError ∨ httpGet api = Fetch.readError ∨
          ∃ b, httpGet api = Fetch.body b ∧ isJSONSource api = true ∧ jsonUnmarshal b = none) →
        visitSource httpGet domain S₀ api = some S₀) ∧
      (∀ (S₀ : Finset Str) (api : Str),
        ∃ S₁, visitSource httpGet domain S₀ api = some S₁ ∧ S₀ ⊆ S₁) := by
  have hmem : ∀ s, s ∈ (apis domain).toFinset.biUnion (sourceMatches httpGet domain) ↔
      ∃ api ∈ apis domain, s ∈ sourceMatches httpGet domain api := by
    intro s
    rw [Finset.mem_biUnion]
    constructor
    · rintro ⟨api, h1, h2⟩
      exact ⟨api, List.mem_toFinset.1 h1, h2⟩
    · rintro ⟨api, h1, h2⟩
      exact ⟨api, List.mem_toFinset.2 h1, h2⟩
  refine ⟨_, processDomain_eq httpGet domain, hmem, ?_, ?_, ?_, ?_⟩
  · intro out hE
    exact ⟨hE.1, fun s => (hE.2 s).trans (hmem s)⟩
  · intro body S₀ h
    simp [extractSubdomainsFromJSON, h]
  · intro S₀ api h
    rcases h with h | h | ⟨b, h, hj, hn⟩
    · simp [visitSource, h]
    · simp [visitSource, h]
    · simp [visitSource, h, hj, extractSubdomainsFromJSON, hn]
  · intro S₀ api
    exact ⟨_, visitSource_eq httpGet domain S₀ api, Finset.subset_union_left⟩

/-- C7 (the code departs from the claim): for the domain `example.com` the bodies
of the sources at positions 1, 3 and 5 go to the JSON extractor and the other six
to the text extractor, but the test looks at the URL with the domain in it: for
the domain `crt.sh` all nine bodies go to the JSON extractor, so a run in which
every source answers with the text `www.crt.sh` collects nothing, although the
text extractor finds `www.crt.sh` in that body. -/
theorem C7_routing_depends_on_domain :
    (apis "example.com".toList).map isJSONSource =
      [true, false, true, false, true, false, false, false, false] ∧
    (apis "crt.sh".toList).map isJSONSource =
      [true, true, true, true, true, true, true, true, true] ∧
    processDomain plainTextGet "crt.sh".toList = some ∅ ∧
    extractSubdomainsFromText "www.crt.sh".toList "crt.sh".toList ∅ =
      some {"www.crt.sh".toList} :=
  ⟨by decide, by decide, by decide, by decide⟩

/-- C8: `saveResults` writes the same lines for two result streams that are
permutations of each other, and so for the result streams of any two runs over
the same domain list in which every request of every worker has the same
outcome, whatever the order in which each worker sends its set and however the
workers interleave. -/
theorem C8_final_list_deterministic (created : Bool) :
    (∀ l₁ l₂ : List Str, l₁.Perm l₂ → saveResults created l₁ = saveResults created l₂) ∧
    (∀ (g₁ g₂ : Str → Fetch) (domains : List Str) (s₁ s₂ : List Str),
      (∀ d ∈ domains, ∀ api ∈ apis d, g₁ api = g₂ api) →
      ResultStream g₁ domains s₁ → ResultStream g₂ domains s₂ →
      saveResults created s₁ = saveResults created s₂) := by
  have hperm : ∀ l₁ l₂ : List Str, l₁.Perm l₂ →
      saveResults created l₁ = saveResults created l₂ := by
    intro l₁ l₂ h
    simp only [saveResults, sortStrings_eq_of_perm h]
  refine ⟨hperm, ?_⟩
  intro g₁ g₂ domains s₁ s₂ hagree h₁ h₂
  exact hperm s₁ s₂ (resultStream_perm (resultStream_congr g₁ g₂ domains s₁ hagree h₁) h₂)

theorem C8_final_list_deterministic_witness :
    saveResults true ["b.e.com".toList, "a.e.com".toList] =
      saveResults true ["a.e.com".toList, "b.e.com".toList] :=
  (C8_final_list_deterministic true).1 _ _ (List.Perm.swap _ _ _)

/-- C9: for every result stream, `saveResults` writes a list that is
lexicographically non-decreasing and holds exactly the strings that occurred on
the stream. -/
theorem C9_nothing_lost_or_invented (results : List Str) :
    ∃ lines, saveResults true results = some lines ∧
      lines.Sorted (· ≤ ·) ∧ ∀ s, s ∈ lines ↔ s ∈ results :=
  ⟨sortStrings results, by simp [saveResults], sortStrings_sorted results,
    fun _ => (sortStrings_perm results).mem_iff⟩

/-- C10: for the empty domain list no worker is launched, the only result stream
is the empty one, and `saveResults` writes the empty list. -/
theorem C10_empty_domain_list (httpGet : Str → Fetch) :
    workers httpGet [] = [] ∧
    (∀ stream, ResultStream httpGet [] stream ↔ stream = []) ∧
    saveResults true [] = some [] :=
  ⟨rfl, resultStream_nil_iff httpGet, by decide⟩

end Sushi
